import Mathlib

/-!
# Verification of the bounded MPMC queue (`src/MPMCQueue.h`)

Shallow embedding of the queue in its sequential (interleaving-free)
execution model: each `try_enqueue` / `try_dequeue` call runs to completion
before the next call starts, so the `compare_exchange_strong` on `m_tail` /
`m_head` always succeeds once the version check has passed (the counter
cannot change between the relaxed load and the CAS in a sequential run).

Modelling choices:
* `uint64_t` counters and versions are modelled as `Nat`; the specification
  treats wrap-around at the 64-bit boundary as out of scope.
* The ring storage `m_items` is modelled as a total function `Nat → Slot α`;
  only indices `< m_capacity` are ever accessed when the capacity is
  positive.  A slot's payload is `Option α`, with `none` standing for the
  uninitialized memory a freshly allocated slot holds.
* `try_dequeue`'s out-parameter is threaded explicitly: the call receives
  the current contents of `out` and returns its new contents.
-/

/-- One ring slot (`struct Item`, lines 79-83 of `MPMCQueue.h`): a version
counter and a payload. -/
structure Slot (α : Type) where
  version : Nat
  value : Option α

/-- The queue state (fields at lines 90-95 of `MPMCQueue.h`). -/
structure MPMCQueue (α : Type) where
  m_items : Nat → Slot α
  m_capacity : Nat
  m_head : Nat
  m_tail : Nat

/-- The constructor `MPMCQueue(capacity)` (lines 9-19): slot `i` starts with
`version = i`, payload uninitialized, and `head = tail = 0`. -/
def MPMCQueue.construct (α : Type) (capacity : Nat) : MPMCQueue α :=
  { m_items := fun i => { version := i, value := none }
    m_capacity := capacity
    m_head := 0
    m_tail := 0 }

/-- `try_enqueue` (lines 29-50).  The payload write (line 43) and the version
release-store (line 47) are modelled as one slot update; in the sequential
model the CAS on `m_tail` (line 38) always succeeds once the version check
(line 33) has passed. -/
def MPMCQueue.try_enqueue {α : Type} (q : MPMCQueue α) (value : α) :
    Bool × MPMCQueue α :=
  let tail := q.m_tail
  if (q.m_items (tail % q.m_capacity)).version ≠ tail then
    (false, q)
  else
    (true,
      { q with
          m_tail := tail + 1
          m_items := fun k =>
            if k = tail % q.m_capacity then
              { version := tail + 1, value := some value }
            else q.m_items k })

/-- `try_dequeue` (lines 52-74).  The payload read (line 68) and the version
release-store (line 71) are modelled together; in the sequential model the
CAS on `m_head` (line 63) always succeeds once the version check (line 58)
has passed.  The slot's payload is not modified by a dequeue. -/
def MPMCQueue.try_dequeue {α : Type} (q : MPMCQueue α) (out : Option α) :
    Bool × Option α × MPMCQueue α :=
  let head := q.m_head
  if (q.m_items (head % q.m_capacity)).version ≠ head + 1 then
    (false, out, q)
  else
    (true, (q.m_items (head % q.m_capacity)).value,
      { q with
          m_head := head + 1
          m_items := fun k =>
            if k = head % q.m_capacity then
              { version := head + q.m_capacity
                value := (q.m_items k).value }
            else q.m_items k })

/-- `capacity()` (line 76). -/
def MPMCQueue.capacity {α : Type} (q : MPMCQueue α) : Nat := q.m_capacity

/-- One queue operation of the sequential model. -/
inductive Op (α : Type) where
  | enq : α → Op α
  | deq : Op α

/-- One step of a traced run.  The state carries the current queue, the list
of values of the successful enqueues so far (in order), and the list of
outputs of the successful dequeues so far (in order); a failed call changes
neither list.  Every dequeue is passed a fresh `none` out-argument. -/
def stepT {α : Type} (s : MPMCQueue α × List α × List (Option α)) (op : Op α) :
    MPMCQueue α × List α × List (Option α) :=
  match op with
  | Op.enq v =>
      let r := s.1.try_enqueue v
      (r.2, if r.1 then s.2.1 ++ [v] else s.2.1, s.2.2)
  | Op.deq =>
      let r := s.1.try_dequeue none
      (r.2.2, s.2.1, if r.1 then s.2.2 ++ [r.2.1] else s.2.2)

/-- Run a list of operations on a freshly constructed queue of the given
capacity, collecting the successful enqueue values and dequeue outputs. -/
def runT (α : Type) (cap : Nat) (ops : List (Op α)) :
    MPMCQueue α × List α × List (Option α) :=
  ops.foldl stepT (MPMCQueue.construct α cap, [], [])

/-- Run a list of operations, recording for each call its boolean result and,
for a dequeue, the value written to the out-argument (`none` if the call
failed and left the fresh `none` out-argument untouched). -/
def runR {α : Type} : MPMCQueue α → List (Op α) → List (Bool × Option α)
  | _, [] => []
  | q, Op.enq v :: ops =>
      let r := q.try_enqueue v
      (r.1, none) :: runR r.2 ops
  | q, Op.deq :: ops =>
      let r := q.try_dequeue none
      (r.1, r.2.1) :: runR r.2.2 ops

/-- The values carried by the enqueue operations of a list, in order. -/
def enqVals {α : Type} : List (Op α) → List α
  | [] => []
  | Op.enq v :: ops => v :: enqVals ops
  | Op.deq :: ops => enqVals ops

/-- Spec-side predicate, from the data-model invariant of the specification:
the slot at ring index `n % capacity` is empty and eligible to receive the
value for sequence `n` when no enqueued-but-unconsumed sequence is pending at
that index and `n` is the next production cycle there. -/
def emptyEligibleFor {α : Type} (q : MPMCQueue α) (n : Nat) : Prop :=
  q.m_tail ≤ n ∧ n < q.m_tail + q.m_capacity ∧
  ∀ m, q.m_head ≤ m → m < q.m_tail → m % q.m_capacity ≠ n % q.m_capacity

/-- Spec-side predicate, from the data-model invariant of the specification:
the queue holds a published value eligible to be consumed as sequence `n`
when the value for sequence `n` has been enqueued and not yet dequeued. -/
def publishedFor {α : Type} (q : MPMCQueue α) (n : Nat) : Prop :=
  q.m_head ≤ n ∧ n < q.m_tail

/-- Claim C4: the concrete scenario on a queue of capacity 4, run
sequentially: enqueuing A, B, C, D (here 10, 11, 12, 13) returns true four
times; enqueuing E (here 14) returns false; a dequeue returns A; enqueuing E
now succeeds; three further dequeues return B, C, D; one more returns E; a
final dequeue on the empty queue returns false. -/
theorem mpmc_concrete_scenario_cap4 :
    runR (MPMCQueue.construct Nat 4)
      [Op.enq 10, Op.enq 11, Op.enq 12, Op.enq 13, Op.enq 14, Op.deq,
       Op.enq 14, Op.deq, Op.deq, Op.deq, Op.deq, Op.deq] =
    [(true, none), (true, none), (true, none), (true, none), (false, none),
     (true, some 10), (true, none), (true, some 11), (true, some 12),
     (true, some 13), (true, some 14), (false, none)] := by
  decide

/-- Claim C6: on any queue state, a call that returns false leaves the whole
state unchanged, a successful enqueue increments `m_tail` by exactly 1 and
leaves `m_head` unchanged, and a successful dequeue increments `m_head` by
exactly 1 and leaves `m_tail` unchanged; no call ever decreases a counter. -/
theorem mpmc_counters_monotone (α : Type) (q : MPMCQueue α) (v : α)
    (out : Option α) :
    ((q.try_enqueue v).1 = true →
      (q.try_enqueue v).2.m_tail = q.m_tail + 1 ∧
      (q.try_enqueue v).2.m_head = q.m_head) ∧
    ((q.try_enqueue v).1 = false → (q.try_enqueue v).2 = q) ∧
    ((q.try_dequeue out).1 = true →
      (q.try_dequeue out).2.2.m_head = q.m_head + 1 ∧
      (q.try_dequeue out).2.2.m_tail = q.m_tail) ∧
    ((q.try_dequeue out).1 = false → (q.try_dequeue out).2.2 = q) := by
  by_cases he : (q.m_items (q.m_tail % q.m_capacity)).version = q.m_tail <;>
    by_cases hd :
      (q.m_items (q.m_head % q.m_capacity)).version = q.m_head + 1 <;>
    simp [MPMCQueue.try_enqueue, MPMCQueue.try_dequeue, he, hd]

/-- Witness for C6 at a concrete state: a successful enqueue on a fresh
queue of capacity 2 increments the tail counter. -/
theorem mpmc_counters_monotone_witness :
    ((MPMCQueue.construct Nat 2).try_enqueue 7).1 = true ∧
    ((MPMCQueue.construct Nat 2).try_enqueue 7).2.m_tail =
      (MPMCQueue.construct Nat 2).m_tail + 1 := by
  refine ⟨by decide, ?_⟩
  exact ((mpmc_counters_monotone Nat (MPMCQueue.construct Nat 2) 7 none).1
    (by decide)).1

/-- Claim C7: construction with a positive capacity initializes each slot's
version to its own index and sets `head = tail = 0`.  (In the model,
allocation always succeeds and construction is a total function; the fatal
allocation-failure path has no observable state to verify.) -/
theorem mpmc_construct_spec (α : Type) (cap : Nat) :
    (∀ i, i < cap → ((MPMCQueue.construct α cap).m_items i).version = i) ∧
    (MPMCQueue.construct α cap).m_head = 0 ∧
    (MPMCQueue.construct α cap).m_tail = 0 :=
  ⟨fun _ _ => rfl, rfl, rfl⟩

/-- Witness for C7 at capacity 3. -/
theorem mpmc_construct_spec_witness :
    ((MPMCQueue.construct Nat 3).m_items 2).version = 2 ∧
    (MPMCQueue.construct Nat 3).m_head = 0 ∧
    (MPMCQueue.construct Nat 3).m_tail = 0 :=
  ⟨(mpmc_construct_spec Nat 3).1 2 (by decide),
   (mpmc_construct_spec Nat 3).2.1, (mpmc_construct_spec Nat 3).2.2⟩

theorem stepT_capacity {α : Type} (s : MPMCQueue α × List α × List (Option α))
    (op : Op α) : (stepT s op).1.m_capacity = s.1.m_capacity := by
  cases op with
  | enq v =>
      by_cases he :
        (s.1.m_items (s.1.m_tail % s.1.m_capacity)).version = s.1.m_tail <;>
      simp [stepT, MPMCQueue.try_enqueue, he]
  | deq =>
      by_cases hd :
        (s.1.m_items (s.1.m_head % s.1.m_capacity)).version = s.1.m_head + 1 <;>
      simp [stepT, MPMCQueue.try_dequeue, hd]

theorem foldl_stepT_capacity {α : Type} (ops : List (Op α))
    (s : MPMCQueue α × List α × List (Option α)) :
    (ops.foldl stepT s).1.m_capacity = s.1.m_capacity := by
  induction ops generalizing s with
  | nil => rfl
  | cons op ops ih => rw [List.foldl_cons, ih (stepT s op), stepT_capacity]

/-- Claim C8: after any sequence of operations on a freshly constructed
queue, the stored capacity field is unchanged and `capacity()` returns the
original construction argument. -/
theorem mpmc_capacity_immutable (α : Type) (cap : Nat) (ops : List (Op α)) :
    MPMCQueue.capacity (runT α cap ops).1 = cap ∧
    (runT α cap ops).1.m_capacity = cap :=
  ⟨foldl_stepT_capacity ops (MPMCQueue.construct α cap, [], []),
   foldl_stepT_capacity ops (MPMCQueue.construct α cap, [], [])⟩

/-- The least `n` with `m ≤ n` and `n % cap = i`, for `i < cap`: the next
sequence number at or after `m` that maps to ring index `i`. -/
def leastGE (m i cap : Nat) : Nat := m + (i + cap - m % cap) % cap

theorem leastGE_le (m i cap : Nat) : m ≤ leastGE m i cap :=
  Nat.le_add_right m ((i + cap - m % cap) % cap)

theorem leastGE_lt (m i cap : Nat) (hc : 0 < cap) : leastGE m i cap < m + cap := by
  have h := Nat.mod_lt (i + cap - m % cap) hc
  unfold leastGE
  omega

theorem leastGE_mod (m i cap : Nat) (hc : 0 < cap) (hi : i < cap) :
    leastGE m i cap % cap = i := by
  have hr : m % cap < cap := Nat.mod_lt m hc
  have h1 : Nat.ModEq cap (m + (i + cap - m % cap) % cap)
      (m % cap + (i + cap - m % cap)) :=
    Nat.ModEq.add (Nat.mod_modEq m cap).symm (Nat.mod_modEq (i + cap - m % cap) cap)
  have h2 : m % cap + (i + cap - m % cap) = i + cap := by omega
  rw [h2] at h1
  unfold leastGE
  calc (m + (i + cap - m % cap) % cap) % cap = (i + cap) % cap := h1
    _ = i % cap := Nat.add_mod_right i cap
    _ = i := Nat.mod_eq_of_lt hi

theorem le_leastGE (m i cap n : Nat) (hc : 0 < cap) (hi : i < cap)
    (hmn : m ≤ n) (hn : n % cap = i) : leastGE m i cap ≤ n := by
  by_contra hlt
  push_neg at hlt
  have hmod : Nat.ModEq cap n (leastGE m i cap) := by
    show n % cap = leastGE m i cap % cap
    rw [hn, leastGE_mod m i cap hc hi]
  have hd : cap ∣ leastGE m i cap - n :=
    (Nat.modEq_iff_dvd' (Nat.le_of_lt hlt)).mp hmod
  have h1 : leastGE m i cap < m + cap := leastGE_lt m i cap hc
  have h2 : cap ≤ leastGE m i cap - n := Nat.le_of_dvd (by omega) hd
  omega

theorem leastGE_unique (m i cap n : Nat) (hc : 0 < cap) (hi : i < cap)
    (h1 : m ≤ n) (h2 : n < m + cap) (h3 : n % cap = i) : n = leastGE m i cap := by
  have hle : leastGE m i cap ≤ n := le_leastGE m i cap n hc hi h1 h3
  have hmod : Nat.ModEq cap (leastGE m i cap) n := by
    show leastGE m i cap % cap = n % cap
    rw [h3, leastGE_mod m i cap hc hi]
  have hd : cap ∣ n - leastGE m i cap := (Nat.modEq_iff_dvd' hle).mp hmod
  have hge : m ≤ leastGE m i cap := leastGE_le m i cap
  rcases Nat.eq_zero_or_pos (n - leastGE m i cap) with h0 | hpos
  · omega
  · have := Nat.le_of_dvd hpos hd
    omega

theorem leastGE_self (m cap : Nat) (hc : 0 < cap) : leastGE m (m % cap) cap = m :=
  (leastGE_unique m (m % cap) cap m hc (Nat.mod_lt m hc) (Nat.le_refl m)
    (by omega) rfl).symm

theorem leastGE_succ_ne (m i cap : Nat) (hc : 0 < cap) (hi : i < cap)
    (h : m % cap ≠ i) : leastGE (m + 1) i cap = leastGE m i cap := by
  have h1 : m ≤ leastGE m i cap := leastGE_le m i cap
  have h2 : leastGE m i cap % cap = i := leastGE_mod m i cap hc hi
  have h3 : leastGE m i cap ≠ m := by
    intro hgm
    rw [hgm] at h2
    exact h h2
  have h4 : leastGE m i cap < m + cap := leastGE_lt m i cap hc
  exact (leastGE_unique (m + 1) i cap (leastGE m i cap) hc hi (by omega)
    (by omega) h2).symm

theorem leastGE_succ_eq (m cap : Nat) (hc : 0 < cap) :
    leastGE (m + 1) (m % cap) cap = m + cap := by
  have h3 : (m + cap) % cap = m % cap := Nat.add_mod_right m cap
  exact (leastGE_unique (m + 1) (m % cap) cap (m + cap) hc (Nat.mod_lt m hc)
    (by omega) (by omega) h3).symm

/-- Per-slot reachability invariant for capacities at least 2.  Writing
`d = leastGE H i cap` for the next sequence at index `i` to be consumed:
a pending slot (`d < T`) holds version `d + 1` and the value enqueued at
sequence `d`; an empty slot holds the version of the next sequence at
index `i` to be produced. -/
def SlotInv {α : Type} (cap H T : Nat) (vals : List α) (i : Nat)
    (s : Slot α) : Prop :=
  if leastGE H i cap < T then
    s.version = leastGE H i cap + 1 ∧ s.value = vals.get? (leastGE H i cap)
  else
    s.version = leastGE T i cap

/-- Reachability invariant of the sequential model, relative to the list
`vals` of all successfully enqueued values in order.  For capacity 1 the
version scheme degenerates (a full slot's version `n + 1` coincides with the
empty-slot version for sequence `n + capacity`), so the slot always carries
version `m_tail` and the payload of the most recent enqueue. -/
def QInv {α : Type} (cap : Nat) (q : MPMCQueue α) (vals : List α) : Prop :=
  q.m_capacity = cap ∧
  q.m_tail = vals.length ∧
  q.m_head ≤ q.m_tail ∧
  (2 ≤ cap → q.m_tail ≤ q.m_head + cap ∧
    ∀ i, i < cap → SlotInv cap q.m_head q.m_tail vals i (q.m_items i)) ∧
  (cap = 1 → (q.m_items 0).version = q.m_tail ∧
    (q.m_head < q.m_tail → (q.m_items 0).value = vals.get? (q.m_tail - 1)))

theorem construct_inv (α : Type) (cap : Nat) :
    QInv cap (MPMCQueue.construct α cap) [] := by
  refine ⟨rfl, rfl, Nat.le_refl 0,
    fun hcap2 => ⟨Nat.zero_le (0 + cap), fun i hi => ?_⟩,
    fun hcap1 => ⟨rfl, fun h => absurd h (Nat.lt_irrefl 0)⟩⟩
  show SlotInv cap 0 0 [] i { version := i, value := none }
  unfold SlotInv
  rw [if_neg (by omega)]
  show i = leastGE 0 i cap
  exact leastGE_unique 0 i cap i (by omega) hi (Nat.zero_le i) (by omega)
    (Nat.mod_eq_of_lt hi)

theorem try_enqueue_spec {α : Type} (cap : Nat) (q : MPMCQueue α)
    (vals : List α) (v : α) (hc : 1 ≤ cap) (h : QInv cap q vals) :
    (2 ≤ cap → ((q.try_enqueue v).1 = true ↔ q.m_tail < q.m_head + cap)) ∧
    (cap = 1 → (q.try_enqueue v).1 = true) ∧
    ((q.try_enqueue v).1 = true →
      QInv cap (q.try_enqueue v).2 (vals ++ [v]) ∧
      (q.try_enqueue v).2.m_head = q.m_head ∧
      (q.try_enqueue v).2.m_tail = q.m_tail + 1) ∧
    ((q.try_enqueue v).1 = false → q.try_enqueue v = (false, q)) := by
  obtain ⟨hqc, hqt, hht, h2, h1⟩ := h
  have hc0 : 0 < cap := hc
  by_cases he : (q.m_items (q.m_tail % q.m_capacity)).version = q.m_tail
  · -- the version check passes, so the enqueue succeeds
    have hres : q.try_enqueue v = (true,
        { q with
            m_tail := q.m_tail + 1
            m_items := fun k =>
              if k = q.m_tail % q.m_capacity then
                { version := q.m_tail + 1, value := some v }
              else q.m_items k }) := by
      simp [MPMCQueue.try_enqueue, he]
    rw [hqc] at he
    have key : 2 ≤ cap → leastGE q.m_head (q.m_tail % cap) cap = q.m_tail := by
      intro hcap2
      have hjlt : q.m_tail % cap < cap := Nat.mod_lt q.m_tail hc0
      have hs := (h2 hcap2).2 (q.m_tail % cap) hjlt
      unfold SlotInv at hs
      by_cases hdT : leastGE q.m_head (q.m_tail % cap) cap < q.m_tail
      · rw [if_pos hdT] at hs
        exfalso
        rw [hs.1] at he
        have hmodd : leastGE q.m_head (q.m_tail % cap) cap % cap =
            q.m_tail % cap := leastGE_mod q.m_head (q.m_tail % cap) cap hc0 hjlt
        have hdvd : cap ∣ q.m_tail - leastGE q.m_head (q.m_tail % cap) cap :=
          (Nat.modEq_iff_dvd' (by omega)).mp hmodd
        have := Nat.le_of_dvd (by omega) hdvd
        omega
      · push_neg at hdT
        have hle : leastGE q.m_head (q.m_tail % cap) cap ≤ q.m_tail :=
          le_leastGE q.m_head (q.m_tail % cap) cap q.m_tail hc0 hjlt hht rfl
        omega
    have hTlt : 2 ≤ cap → q.m_tail < q.m_head + cap := by
      intro hcap2
      have := leastGE_lt q.m_head (q.m_tail % cap) cap hc0
      rw [key hcap2] at this
      exact this
    refine ⟨fun hcap2 => by rw [hres]; exact iff_of_true rfl (hTlt hcap2),
      fun _ => by rw [hres],
      fun _ => ⟨?_, by rw [hres], by rw [hres]⟩,
      fun hb => by rw [hres] at hb; simp at hb⟩
    rw [hres]
    refine ⟨hqc, by simp [hqt], by show q.m_head ≤ q.m_tail + 1; omega,
      fun hcap2 => ⟨by show q.m_tail + 1 ≤ q.m_head + cap; have := hTlt hcap2; omega,
        fun i hi => ?_⟩,
      fun hcap1 => ⟨?_, fun _ => ?_⟩⟩
    · -- per-slot invariant, capacity ≥ 2
      show SlotInv cap q.m_head (q.m_tail + 1) (vals ++ [v]) i
        (if i = q.m_tail % q.m_capacity then
          { version := q.m_tail + 1, value := some v } else q.m_items i)
      rw [hqc]
      by_cases hij : i = q.m_tail % cap
      · rw [if_pos hij]
        subst hij
        unfold SlotInv
        rw [key hcap2]
        rw [if_pos (Nat.lt_succ_self q.m_tail)]
        refine ⟨rfl, ?_⟩
        show some v = (vals ++ [v]).get? q.m_tail
        rw [hqt, List.get?_concat_length]
      · rw [if_neg hij]
        have hs := (h2 hcap2).2 i hi
        unfold SlotInv at hs ⊢
        by_cases hdi : leastGE q.m_head i cap < q.m_tail
        · rw [if_pos hdi] at hs
          rw [if_pos (by omega)]
          refine ⟨hs.1, ?_⟩
          rw [hs.2]
          have hlen : leastGE q.m_head i cap < vals.length := by omega
          exact (List.get?_append hlen).symm
        · rw [if_neg hdi] at hs
          push_neg at hdi
          have hmodd : leastGE q.m_head i cap % cap = i :=
            leastGE_mod q.m_head i cap hc0 hi
          have hne : leastGE q.m_head i cap ≠ q.m_tail := by
            intro hd
            rw [hd] at hmodd
            exact hij hmodd.symm
          rw [if_neg (by omega)]
          rw [leastGE_succ_ne q.m_tail i cap hc0 hi (fun hTi => hij hTi.symm)]
          exact hs
    · -- capacity 1: the slot carries version m_tail
      subst hcap1
      show (if (0 : Nat) = q.m_tail % q.m_capacity then
          ({ version := q.m_tail + 1, value := some v } : Slot α)
        else q.m_items 0).version = q.m_tail + 1
      simp [hqc, Nat.mod_one]
    · -- capacity 1: the slot carries the payload of the latest enqueue
      subst hcap1
      show (if (0 : Nat) = q.m_tail % q.m_capacity then
          ({ version := q.m_tail + 1, value := some v } : Slot α)
        else q.m_items 0).value = (vals ++ [v]).get? (q.m_tail + 1 - 1)
      simp [hqc, Nat.mod_one, hqt, List.get?_concat_length]
  · -- the version check fails, so the enqueue returns false and changes nothing
    have hres : q.try_enqueue v = (false, q) := by
      simp [MPMCQueue.try_enqueue, he]
    have hfull : 2 ≤ cap → ¬ (q.m_tail < q.m_head + cap) := by
      intro hcap2 hlt
      apply he
      rw [hqc]
      have hjlt : q.m_tail % cap < cap := Nat.mod_lt q.m_tail hc0
      have hd : q.m_tail = leastGE q.m_head (q.m_tail % cap) cap :=
        leastGE_unique q.m_head (q.m_tail % cap) cap q.m_tail hc0 hjlt hht hlt rfl
      have hs := (h2 hcap2).2 (q.m_tail % cap) hjlt
      unfold SlotInv at hs
      rw [← hd] at hs
      rw [if_neg (Nat.lt_irrefl q.m_tail)] at hs
      rw [leastGE_self q.m_tail cap hc0] at hs
      exact hs
    refine ⟨fun hcap2 => by rw [hres]; exact iff_of_false (by simp) (hfull hcap2),
      fun hcap1 => absurd (h1 hcap1).1
        (by rw [hqc, hcap1, Nat.mod_one] at he; exact he),
      fun hb => by rw [hres] at hb; simp at hb,
      fun _ => hres⟩

theorem try_dequeue_spec {α : Type} (cap : Nat) (q : MPMCQueue α)
    (vals : List α) (out : Option α) (hc : 1 ≤ cap) (h : QInv cap q vals) :
    (2 ≤ cap → ((q.try_dequeue out).1 = true ↔ q.m_head < q.m_tail)) ∧
    (cap = 1 → ((q.try_dequeue out).1 = true ↔ q.m_tail = q.m_head + 1)) ∧
    ((q.try_dequeue out).1 = true →
      QInv cap (q.try_dequeue out).2.2 vals ∧
      (q.try_dequeue out).2.2.m_head = q.m_head + 1 ∧
      (q.try_dequeue out).2.2.m_tail = q.m_tail ∧
      (q.try_dequeue out).2.1 = vals.get? q.m_head ∧
      q.m_head < vals.length ∧
      ((q.try_dequeue out).2.2.m_items (q.m_head % cap)).version =
        q.m_head + cap) ∧
    ((q.try_dequeue out).1 = false → q.try_dequeue out = (false, out, q)) := by
  obtain ⟨hqc, hqt, hht, h2, h1⟩ := h
  have hc0 : 0 < cap := hc
  by_cases he : (q.m_items (q.m_head % q.m_capacity)).version = q.m_head + 1
  · -- the version check passes, so the dequeue succeeds
    have hres : q.try_dequeue out = (true,
        (q.m_items (q.m_head % q.m_capacity)).value,
        { q with
            m_head := q.m_head + 1
            m_items := fun k =>
              if k = q.m_head % q.m_capacity then
                { version := q.m_head + q.m_capacity
                  value := (q.m_items k).value }
              else q.m_items k }) := by
      simp [MPMCQueue.try_dequeue, he]
    rw [hqc] at he
    have hdk : leastGE q.m_head (q.m_head % cap) cap = q.m_head :=
      leastGE_self q.m_head cap hc0
    have keyD : 2 ≤ cap → q.m_head < q.m_tail ∧
        (q.m_items (q.m_head % cap)).value = vals.get? q.m_head := by
      intro hcap2
      have hklt : q.m_head % cap < cap := Nat.mod_lt q.m_head hc0
      have hs := (h2 hcap2).2 (q.m_head % cap) hklt
      unfold SlotInv at hs
      rw [hdk] at hs
      by_cases hHT : q.m_head < q.m_tail
      · rw [if_pos hHT] at hs
        exact ⟨hHT, hs.2⟩
      · exfalso
        rw [if_neg hHT] at hs
        rw [hs] at he
        push_neg at hHT
        have hHeq : q.m_head = q.m_tail := by omega
        rw [← hHeq] at he
        rw [hdk] at he
        omega
    have keyD1 : cap = 1 → q.m_tail = q.m_head + 1 := by
      intro hcap1
      have hv := (h1 hcap1).1
      rw [hcap1, Nat.mod_one] at he
      rw [hv] at he
      exact he
    have hHT : q.m_head < q.m_tail := by
      by_cases hcap2 : 2 ≤ cap
      · exact (keyD hcap2).1
      · have hcap1 : cap = 1 := by omega
        have := keyD1 hcap1
        omega
    refine ⟨fun hcap2 => by rw [hres]; exact iff_of_true rfl hHT,
      fun hcap1 => by rw [hres]; exact iff_of_true rfl (keyD1 hcap1),
      fun _ => ⟨?_, by rw [hres], by rw [hres], ?_, by omega, ?_⟩,
      fun hb => by rw [hres] at hb; simp at hb⟩
    · -- the invariant is preserved
      rw [hres]
      refine ⟨hqc, hqt, by show q.m_head + 1 ≤ q.m_tail; omega,
        fun hcap2 => ⟨(by have := (h2 hcap2).1; omega :
            q.m_tail ≤ q.m_head + 1 + cap),
          fun i hi => ?_⟩,
        fun hcap1 => ⟨?_, fun hlt => ?_⟩⟩
      · -- per-slot invariant, capacity ≥ 2
        show SlotInv cap (q.m_head + 1) q.m_tail vals i
          (if i = q.m_head % q.m_capacity then
            { version := q.m_head + q.m_capacity
              value := (q.m_items i).value }
          else q.m_items i)
        rw [hqc]
        by_cases hik : i = q.m_head % cap
        · rw [if_pos hik]
          subst hik
          unfold SlotInv
          rw [leastGE_succ_eq q.m_head cap hc0]
          have hTb : q.m_tail ≤ q.m_head + cap := (h2 hcap2).1
          rw [if_neg (by omega)]
          show q.m_head + cap = leastGE q.m_tail (q.m_head % cap) cap
          exact leastGE_unique q.m_tail (q.m_head % cap) cap (q.m_head + cap)
            hc0 (Nat.mod_lt q.m_head hc0) hTb (by omega)
            (Nat.add_mod_right q.m_head cap)
        · rw [if_neg hik]
          have hs := (h2 hcap2).2 i hi
          unfold SlotInv at hs ⊢
          rw [leastGE_succ_ne q.m_head i cap hc0 hi (fun hHi => hik hHi.symm)]
          exact hs
      · -- capacity 1: the slot still carries version m_tail
        subst hcap1
        have hT1 : q.m_tail = q.m_head + 1 := keyD1 rfl
        show (if (0 : Nat) = q.m_head % q.m_capacity then
            ({ version := q.m_head + q.m_capacity
               value := (q.m_items 0).value } : Slot α)
          else q.m_items 0).version = q.m_tail
        simp [hqc, Nat.mod_one]
        omega
      · -- capacity 1: after the dequeue head = tail, so this case is vacuous
        exfalso
        have hT1 : q.m_tail = q.m_head + 1 := keyD1 hcap1
        have : q.m_head + 1 < q.m_tail := hlt
        omega
    · -- the dequeued value is the value enqueued at sequence m_head
      rw [hres]
      show (q.m_items (q.m_head % q.m_capacity)).value = vals.get? q.m_head
      rw [hqc]
      by_cases hcap2 : 2 ≤ cap
      · exact (keyD hcap2).2
      · have hcap1 : cap = 1 := by omega
        have hT1 : q.m_tail = q.m_head + 1 := keyD1 hcap1
        have hv := (h1 hcap1).2 (by omega)
        rw [hcap1, Nat.mod_one]
        rw [hv, hT1]
        simp
    · -- the consumed slot's version becomes m_head + capacity
      rw [hres]
      simp [hqc]
  · -- the version check fails, so the dequeue returns false and changes nothing
    have hres : q.try_dequeue out = (false, out, q) := by
      simp [MPMCQueue.try_dequeue, he]
    have hempty2 : 2 ≤ cap → ¬ (q.m_head < q.m_tail) := by
      intro hcap2 hHT
      apply he
      rw [hqc]
      have hklt : q.m_head % cap < cap := Nat.mod_lt q.m_head hc0
      have hs := (h2 hcap2).2 (q.m_head % cap) hklt
      unfold SlotInv at hs
      rw [leastGE_self q.m_head cap hc0] at hs
      rw [if_pos hHT] at hs
      exact hs.1
    have hempty1 : cap = 1 → ¬ (q.m_tail = q.m_head + 1) := by
      intro hcap1 hT1
      apply he
      rw [hqc, hcap1, Nat.mod_one]
      rw [(h1 hcap1).1]
      exact hT1
    refine ⟨fun hcap2 => by rw [hres]; exact iff_of_false (by simp) (hempty2 hcap2),
      fun hcap1 => by rw [hres]; exact iff_of_false (by simp) (hempty1 hcap1),
      fun hb => by rw [hres] at hb; simp at hb,
      fun _ => hres⟩

/-- Invariant of a traced run: the queue satisfies the reachability
invariant relative to the successfully enqueued values, `m_head` counts the
successful dequeues, and the dequeued outputs are exactly the first
`m_head` enqueued values, in order. -/
def RInv {α : Type} (cap : Nat)
    (s : MPMCQueue α × List α × List (Option α)) : Prop :=
  QInv cap s.1 s.2.1 ∧ s.1.m_head = s.2.2.length ∧
  s.2.2 = (s.2.1.take s.2.2.length).map some

theorem stepT_rinv {α : Type} (cap : Nat)
    (s : MPMCQueue α × List α × List (Option α)) (op : Op α)
    (hc : 1 ≤ cap) (h : RInv cap s) : RInv cap (stepT s op) := by
  obtain ⟨hq, hh, hds⟩ := h
  have hht : s.1.m_head ≤ s.1.m_tail := hq.2.2.1
  have htl : s.1.m_tail = s.2.1.length := hq.2.1
  cases op with
  | enq v =>
      have hspec := try_enqueue_spec cap s.1 s.2.1 v hc hq
      cases hb : (s.1.try_enqueue v).1 with
      | true =>
          have heff := hspec.2.2.1 hb
          refine ⟨?_, ?_, ?_⟩
          · show QInv cap (s.1.try_enqueue v).2
              (if (s.1.try_enqueue v).1 = true then s.2.1 ++ [v] else s.2.1)
            rw [if_pos hb]
            exact heff.1
          · show (s.1.try_enqueue v).2.m_head = s.2.2.length
            rw [heff.2.1]
            exact hh
          · show s.2.2 = ((if (s.1.try_enqueue v).1 = true then s.2.1 ++ [v]
              else s.2.1).take s.2.2.length).map some
            rw [if_pos hb]
            rw [List.take_append_of_le_length (by omega)]
            exact hds
      | false =>
          have heq := hspec.2.2.2 hb
          show RInv cap ((s.1.try_enqueue v).2,
            if (s.1.try_enqueue v).1 = true then s.2.1 ++ [v] else s.2.1, s.2.2)
          rw [heq]
          exact ⟨hq, hh, hds⟩
  | deq =>
      have hspec := try_dequeue_spec cap s.1 s.2.1 none hc hq
      cases hb : (s.1.try_dequeue none).1 with
      | true =>
          have heff := hspec.2.2.1 hb
          have hout : (s.1.try_dequeue none).2.1 = s.2.1.get? s.1.m_head :=
            heff.2.2.2.1
          have hlen : s.1.m_head < s.2.1.length := heff.2.2.2.2.1
          have hw : s.2.1.get? s.1.m_head = some (s.2.1.get ⟨s.1.m_head, hlen⟩) :=
            List.get?_eq_get hlen
          refine ⟨?_, ?_, ?_⟩
          · show QInv cap (s.1.try_dequeue none).2.2 s.2.1
            exact heff.1
          · show (s.1.try_dequeue none).2.2.m_head =
              (if (s.1.try_dequeue none).1 = true
                then s.2.2 ++ [(s.1.try_dequeue none).2.1] else s.2.2).length
            rw [if_pos hb, heff.2.1, List.length_append, hh]
            rfl
          · show (if (s.1.try_dequeue none).1 = true
                then s.2.2 ++ [(s.1.try_dequeue none).2.1] else s.2.2) =
              (s.2.1.take (if (s.1.try_dequeue none).1 = true
                then s.2.2 ++ [(s.1.try_dequeue none).2.1] else s.2.2).length).map
                some
            rw [if_pos hb]
            have hlistlen : (s.2.2 ++ [(s.1.try_dequeue none).2.1]).length =
                s.2.2.length + 1 := by
              rw [List.length_append]
              rfl
            rw [hlistlen, List.take_succ, List.map_append, ← hds]
            rw [← hh]
            have hw2 : s.2.1[s.1.m_head]? = some (s.2.1.get ⟨s.1.m_head, hlen⟩) := by
              rw [← List.get?_eq_getElem?]
              exact hw
            rw [hout, hw, hw2]
            rfl
      | false =>
          have heq := hspec.2.2.2 hb
          show RInv cap ((s.1.try_dequeue none).2.2, s.2.1,
            if (s.1.try_dequeue none).1 = true
              then s.2.2 ++ [(s.1.try_dequeue none).2.1] else s.2.2)
          rw [heq]
          exact ⟨hq, hh, hds⟩

theorem runT_rinv (α : Type) (cap : Nat) (ops : List (Op α)) (hc : 1 ≤ cap) :
    RInv cap (runT α cap ops) := by
  have hgen : ∀ (l : List (Op α)) s, RInv cap s → RInv cap (l.foldl stepT s) := by
    intro l
    induction l with
    | nil => intro s hs; exact hs
    | cons op l ih => intro s hs; exact ih (stepT s op) (stepT_rinv cap s op hc hs)
  exact hgen ops (MPMCQueue.construct α cap, [], []) ⟨construct_inv α cap, rfl, rfl⟩

theorem qinv_lifecycle {α : Type} (cap : Nat) (q : MPMCQueue α)
    (vals : List α) (n : Nat) (hcap : 2 ≤ cap) (h : QInv cap q vals) :
    ((q.m_items (n % cap)).version = n ↔ emptyEligibleFor q n) ∧
    ((q.m_items (n % cap)).version = n + 1 ↔ publishedFor q n) := by
  obtain ⟨hqc, hqt, hht, h2, h1⟩ := h
  have hc0 : 0 < cap := by omega
  have hb := (h2 hcap).1
  have hi : n % cap < cap := Nat.mod_lt n hc0
  have hs := (h2 hcap).2 (n % cap) hi
  unfold SlotInv at hs
  have hdmod : leastGE q.m_head (n % cap) cap % cap = n % cap :=
    leastGE_mod q.m_head (n % cap) cap hc0 hi
  have hdge : q.m_head ≤ leastGE q.m_head (n % cap) cap :=
    leastGE_le q.m_head (n % cap) cap
  have hdlt : leastGE q.m_head (n % cap) cap < q.m_head + cap :=
    leastGE_lt q.m_head (n % cap) cap hc0
  simp only [emptyEligibleFor, publishedFor, hqc]
  by_cases hdT : leastGE q.m_head (n % cap) cap < q.m_tail
  · -- the slot holds a pending value for sequence d = leastGE head (n % cap) cap
    rw [if_pos hdT] at hs
    constructor
    · apply iff_of_false
      · rw [hs.1]
        intro heq
        have hdvd : cap ∣ n - leastGE q.m_head (n % cap) cap :=
          (Nat.modEq_iff_dvd' (by omega)).mp hdmod
        have := Nat.le_of_dvd (by omega) hdvd
        omega
      · intro hEE
        exact hEE.2.2 (leastGE q.m_head (n % cap) cap) hdge hdT hdmod
    · constructor
      · intro hv
        rw [hs.1] at hv
        have hdn : leastGE q.m_head (n % cap) cap = n := by omega
        constructor
        · omega
        · omega
      · intro hP
        have hdn : n = leastGE q.m_head (n % cap) cap :=
          leastGE_unique q.m_head (n % cap) cap n hc0 hi hP.1 (by omega) rfl
        rw [hs.1, ← hdn]
  · -- the slot is empty; its version is the next production sequence there
    rw [if_neg hdT] at hs
    push_neg at hdT
    have hnopend : ∀ m, q.m_head ≤ m → m < q.m_tail → m % cap ≠ n % cap := by
      intro m hm1 hm2 hm3
      have := le_leastGE q.m_head (n % cap) cap m hc0 hi hm1 hm3
      omega
    have hemod : leastGE q.m_tail (n % cap) cap % cap = n % cap :=
      leastGE_mod q.m_tail (n % cap) cap hc0 hi
    have hege : q.m_tail ≤ leastGE q.m_tail (n % cap) cap :=
      leastGE_le q.m_tail (n % cap) cap
    have helt : leastGE q.m_tail (n % cap) cap < q.m_tail + cap :=
      leastGE_lt q.m_tail (n % cap) cap hc0
    constructor
    · constructor
      · intro hv
        rw [hs] at hv
        refine ⟨by omega, by omega, hnopend⟩
      · intro hEE
        have hen : n = leastGE q.m_tail (n % cap) cap :=
          leastGE_unique q.m_tail (n % cap) cap n hc0 hi hEE.1 hEE.2.1 rfl
        rw [hs, ← hen]
    · apply iff_of_false
      · rw [hs]
        intro he1
        rw [he1] at hemod
        have hdvd : cap ∣ (n + 1) - n :=
          (Nat.modEq_iff_dvd' (by omega)).mp hemod.symm
        have := Nat.le_of_dvd (by omega) hdvd
        omega
      · intro hP
        have := le_leastGE q.m_head (n % cap) cap n hc0 hi hP.1 rfl
        omega

theorem qinv_eligible_iff {α : Type} (cap : Nat) (q : MPMCQueue α)
    (vals : List α) (hcap : 2 ≤ cap) (h : QInv cap q vals) :
    (q.m_tail < q.m_head + cap ↔ emptyEligibleFor q q.m_tail) ∧
    (q.m_head < q.m_tail ↔ publishedFor q q.m_head) := by
  obtain ⟨hqc, hqt, hht, h2, h1⟩ := h
  have hc0 : 0 < cap := by omega
  have hb := (h2 hcap).1
  simp only [emptyEligibleFor, publishedFor, hqc]
  constructor
  · constructor
    · intro hlt
      refine ⟨Nat.le_refl _, by omega, fun m hm1 hm2 hm3 => ?_⟩
      have hdvd : cap ∣ q.m_tail - m := (Nat.modEq_iff_dvd' (by omega)).mp hm3
      have := Nat.le_of_dvd (by omega) hdvd
      omega
    · intro hEE
      by_contra hge
      push_neg at hge
      have hteq : q.m_tail = q.m_head + cap := by omega
      apply hEE.2.2 q.m_head (Nat.le_refl _) (by omega)
      rw [hteq]
      exact (Nat.add_mod_right q.m_head cap).symm
  · constructor
    · intro hlt
      exact ⟨Nat.le_refl _, hlt⟩
    · intro hP
      exact hP.2

/-- Claim C1, amended to capacities at least 2 (for capacity 1 the version
scheme degenerates and the claim fails): in every state reachable from a
fresh queue, for every sequence number `n` and ring index `i = n % cap`, the
slot at `i` has version `n` exactly when it is empty and eligible to receive
the value for sequence `n`, has version `n + 1` exactly when it holds a
published value to be consumed as sequence `n`, `try_enqueue` can claim the
slot at the tail exactly when it is empty-eligible there, `try_dequeue` can
claim the slot at the head exactly when a value is published there, and a
successful dequeue at head `n` sets the slot's version to `n + capacity`. -/
theorem mpmc_slot_version_lifecycle (α : Type) (cap : Nat) (ops : List (Op α))
    (n : Nat) (v : α) (hcap : 2 ≤ cap) :
    (((runT α cap ops).1.m_items (n % cap)).version = n ↔
      emptyEligibleFor (runT α cap ops).1 n) ∧
    (((runT α cap ops).1.m_items (n % cap)).version = n + 1 ↔
      publishedFor (runT α cap ops).1 n) ∧
    (((runT α cap ops).1.try_enqueue v).1 = true ↔
      emptyEligibleFor (runT α cap ops).1 (runT α cap ops).1.m_tail) ∧
    (((runT α cap ops).1.try_dequeue none).1 = true ↔
      publishedFor (runT α cap ops).1 (runT α cap ops).1.m_head) ∧
    (((runT α cap ops).1.try_dequeue none).1 = true →
      (((runT α cap ops).1.try_dequeue none).2.2.m_items
         ((runT α cap ops).1.m_head % cap)).version =
       (runT α cap ops).1.m_head + cap) := by
  have h := (runT_rinv α cap ops (by omega)).1
  have hlc := qinv_lifecycle cap (runT α cap ops).1 (runT α cap ops).2.1 n hcap h
  have hel := qinv_eligible_iff cap (runT α cap ops).1 (runT α cap ops).2.1 hcap h
  have hespec := try_enqueue_spec cap (runT α cap ops).1 (runT α cap ops).2.1 v
    (by omega) h
  have hdspec := try_dequeue_spec cap (runT α cap ops).1 (runT α cap ops).2.1
    none (by omega) h
  exact ⟨hlc.1, hlc.2, (hespec.1 hcap).trans hel.1, (hdspec.1 hcap).trans hel.2,
    fun hb => (hdspec.2.2.1 hb).2.2.2.2.2⟩

/-- Witness for C1 at capacity 2 after one enqueue, at sequence 0. -/
theorem mpmc_slot_version_lifecycle_witness :
    (2 ≤ 2) ∧
    ((((runT Nat 2 [Op.enq 0]).1.m_items (0 % 2)).version = 0 ↔
       emptyEligibleFor (runT Nat 2 [Op.enq 0]).1 0) ∧
     (((runT Nat 2 [Op.enq 0]).1.m_items (0 % 2)).version = 0 + 1 ↔
       publishedFor (runT Nat 2 [Op.enq 0]).1 0) ∧
     (((runT Nat 2 [Op.enq 0]).1.try_enqueue 5).1 = true ↔
       emptyEligibleFor (runT Nat 2 [Op.enq 0]).1
         (runT Nat 2 [Op.enq 0]).1.m_tail) ∧
     (((runT Nat 2 [Op.enq 0]).1.try_dequeue none).1 = true ↔
       publishedFor (runT Nat 2 [Op.enq 0]).1
         (runT Nat 2 [Op.enq 0]).1.m_head) ∧
     (((runT Nat 2 [Op.enq 0]).1.try_dequeue none).1 = true →
       (((runT Nat 2 [Op.enq 0]).1.try_dequeue none).2.2.m_items
          ((runT Nat 2 [Op.enq 0]).1.m_head % 2)).version =
        (runT Nat 2 [Op.enq 0]).1.m_head + 2)) :=
  ⟨by decide, mpmc_slot_version_lifecycle Nat 2 [Op.enq 0] 0 5 (by decide)⟩

/-- Counterexample to C1 as stated: at capacity 1, after two successful
enqueues, the slot has version 2 but is not empty and eligible for sequence 2
(the value enqueued at sequence 1 is still unconsumed at that index). -/
theorem mpmc_slot_version_lifecycle_cx :
    ((runT Nat 1 [Op.enq 0, Op.enq 1]).1.m_items
      (2 % (runT Nat 1 [Op.enq 0, Op.enq 1]).1.m_capacity)).version = 2 ∧
    ¬ emptyEligibleFor (runT Nat 1 [Op.enq 0, Op.enq 1]).1 2 := by
  refine ⟨by decide, fun hEE => ?_⟩
  exact absurd (hEE.2.2 1 (by decide) (by decide)) (by decide)

/-- Claim C10, amended to capacities at least 2 (at capacity 1 the bound
fails): in every reachable state, `head ≤ tail` and `tail - head ≤ cap`. -/
theorem mpmc_occupancy_bound (α : Type) (cap : Nat) (ops : List (Op α))
    (hcap : 2 ≤ cap) :
    (runT α cap ops).1.m_head ≤ (runT α cap ops).1.m_tail ∧
    (runT α cap ops).1.m_tail - (runT α cap ops).1.m_head ≤ cap := by
  have h := (runT_rinv α cap ops (by omega)).1
  have h1 := h.2.2.1
  have h2 := (h.2.2.2.1 hcap).1
  omega

/-- Witness for C10 at capacity 2 after one enqueue. -/
theorem mpmc_occupancy_bound_witness :
    (2 ≤ 2) ∧
    ((runT Nat 2 [Op.enq 0]).1.m_head ≤ (runT Nat 2 [Op.enq 0]).1.m_tail ∧
     (runT Nat 2 [Op.enq 0]).1.m_tail - (runT Nat 2 [Op.enq 0]).1.m_head ≤ 2) :=
  ⟨by decide, mpmc_occupancy_bound Nat 2 [Op.enq 0] (by decide)⟩

/-- Counterexample to C10 as stated: at capacity 1, two successive enqueues
both succeed, leaving `tail - head = 2 > 1 = capacity`. -/
theorem mpmc_occupancy_bound_cx :
    ¬ ((runT Nat 1 [Op.enq 0, Op.enq 1]).1.m_tail -
        (runT Nat 1 [Op.enq 0, Op.enq 1]).1.m_head ≤
       (runT Nat 1 [Op.enq 0, Op.enq 1]).1.m_capacity) := by
  decide

/-- The operation list that enqueues `f 0, …, f (k-1)` in order. -/
def enqOps {α : Type} (f : Nat → α) (k : Nat) : List (Op α) :=
  (List.range k).map (fun i => Op.enq (f i))

theorem runT_enqOps_succ (α : Type) (N : Nat) (f : Nat → α) (k : Nat) :
    runT α N (enqOps f (k + 1)) =
      stepT (runT α N (enqOps f k)) (Op.enq (f k)) := by
  unfold runT enqOps
  rw [List.range_succ, List.map_append, List.foldl_append]
  rfl

theorem mpmc_fill_state (α : Type) (N : Nat) (f : Nat → α) (hN : 2 ≤ N) :
    ∀ k, k ≤ N → (runT α N (enqOps f k)).1.m_head = 0 ∧
      (runT α N (enqOps f k)).1.m_tail = k := by
  intro k
  induction k with
  | zero => intro _; exact ⟨rfl, rfl⟩
  | succ k ih =>
      intro hk
      obtain ⟨hH, hT⟩ := ih (by omega)
      have hq := (runT_rinv α N (enqOps f k) (by omega)).1
      have hspec := try_enqueue_spec N (runT α N (enqOps f k)).1
        (runT α N (enqOps f k)).2.1 (f k) (by omega) hq
      have hb : ((runT α N (enqOps f k)).1.try_enqueue (f k)).1 = true := by
        rw [hspec.1 hN, hH, hT]
        omega
      have heff := hspec.2.2.1 hb
      rw [runT_enqOps_succ α N f k]
      constructor
      · show ((runT α N (enqOps f k)).1.try_enqueue (f k)).2.m_head = 0
        rw [heff.2.1, hH]
      · show ((runT α N (enqOps f k)).1.try_enqueue (f k)).2.m_tail = k + 1
        rw [heff.2.2, hT]

/-- Claim C2, amended to capacities at least 2 (for capacity 1 the second
enqueue on the full queue wrongly succeeds): on a fresh queue of capacity N,
with no intervening dequeues, the first N `try_enqueue` calls all return
true, and the (N+1)-th call returns false and leaves the entire queue state
unchanged. -/
theorem mpmc_enqueue_capacity_bound (α : Type) (N : Nat) (f : Nat → α) (x : α)
    (hN : 2 ≤ N) :
    (∀ k, k < N → ((runT α N (enqOps f k)).1.try_enqueue (f k)).1 = true) ∧
    (runT α N (enqOps f N)).1.try_enqueue x =
      (false, (runT α N (enqOps f N)).1) := by
  constructor
  · intro k hk
    obtain ⟨hH, hT⟩ := mpmc_fill_state α N f hN k (by omega)
    have hq := (runT_rinv α N (enqOps f k) (by omega)).1
    have hspec := try_enqueue_spec N (runT α N (enqOps f k)).1
      (runT α N (enqOps f k)).2.1 (f k) (by omega) hq
    rw [hspec.1 hN, hH, hT]
    omega
  · obtain ⟨hH, hT⟩ := mpmc_fill_state α N f hN N (Nat.le_refl N)
    have hq := (runT_rinv α N (enqOps f N) (by omega)).1
    have hspec := try_enqueue_spec N (runT α N (enqOps f N)).1
      (runT α N (enqOps f N)).2.1 x (by omega) hq
    apply hspec.2.2.2
    cases hb : ((runT α N (enqOps f N)).1.try_enqueue x).1 with
    | false => rfl
    | true =>
        exfalso
        have hlt := (hspec.1 hN).mp hb
        rw [hH, hT] at hlt
        omega

/-- Witness for C2 at capacity 2. -/
theorem mpmc_enqueue_capacity_bound_witness :
    ((runT Nat 2 (enqOps (fun i => i) 0)).1.try_enqueue
      ((fun i => i) 0)).1 = true ∧
    (runT Nat 2 (enqOps (fun i => i) 2)).1.try_enqueue 9 =
      (false, (runT Nat 2 (enqOps (fun i => i) 2)).1) :=
  ⟨(mpmc_enqueue_capacity_bound Nat 2 (fun i => i) 9 (by decide)).1 0 (by decide),
   (mpmc_enqueue_capacity_bound Nat 2 (fun i => i) 9 (by decide)).2⟩

/-- Counterexample to C2 as stated: for capacity N = 1 the (N+1)-th enqueue
on the full queue returns true (overwriting the unconsumed value), not
false. -/
theorem mpmc_enqueue_capacity_bound_cx :
    ((((MPMCQueue.construct Nat 1).try_enqueue 0).2).try_enqueue 1).1 = true := by
  decide

/-- Claim C3: FIFO order in the sequential model.  If every enqueue in the
run succeeded, then the outputs of the successful dequeues are exactly the
first values enqueued, in enqueue order. -/
theorem mpmc_fifo_order (α : Type) (cap : Nat) (ops : List (Op α))
    (hcap : 1 ≤ cap) (hall : (runT α cap ops).2.1 = enqVals ops) :
    (runT α cap ops).2.2 =
      ((enqVals ops).take (runT α cap ops).2.2.length).map some := by
  have h := runT_rinv α cap ops hcap
  rw [← hall]
  exact h.2.2

/-- Witness for C3: one enqueue then one dequeue at capacity 2. -/
theorem mpmc_fifo_order_witness :
    (runT Nat 2 [Op.enq 3, Op.deq]).2.1 = enqVals [Op.enq 3, Op.deq] ∧
    (runT Nat 2 [Op.enq 3, Op.deq]).2.2 =
      ((enqVals [Op.enq 3, Op.deq]).take
        (runT Nat 2 [Op.enq 3, Op.deq]).2.2.length).map some :=
  ⟨by decide, mpmc_fifo_order Nat 2 [Op.enq 3, Op.deq] (by decide) (by decide)⟩

/-- Claim C5: on every reachable empty queue state (`head = tail`),
`try_dequeue` returns false and mutates neither the out-argument nor any
internal state: it returns exactly `(false, out, q)` with `q` the very state
it was called on. -/
theorem mpmc_dequeue_empty_noop (α : Type) (cap : Nat) (ops : List (Op α))
    (out : Option α) (hcap : 1 ≤ cap)
    (hempty : (runT α cap ops).1.m_head = (runT α cap ops).1.m_tail) :
    (runT α cap ops).1.try_dequeue out = (false, out, (runT α cap ops).1) := by
  have hq := (runT_rinv α cap ops hcap).1
  have hspec := try_dequeue_spec cap (runT α cap ops).1 (runT α cap ops).2.1
    out hcap hq
  apply hspec.2.2.2
  cases hb : ((runT α cap ops).1.try_dequeue out).1 with
  | false => rfl
  | true =>
      exfalso
      by_cases hcap2 : 2 ≤ cap
      · have := (hspec.1 hcap2).mp hb
        omega
      · have hcap1 : cap = 1 := by omega
        have := (hspec.2.1 hcap1).mp hb
        omega

/-- Witness for C5: a fresh queue of capacity 2 is empty; dequeue is a
no-op on it. -/
theorem mpmc_dequeue_empty_noop_witness :
    (runT Nat 2 []).1.m_head = (runT Nat 2 []).1.m_tail ∧
    (runT Nat 2 []).1.try_dequeue none = (false, none, (runT Nat 2 []).1) :=
  ⟨rfl, mpmc_dequeue_empty_noop Nat 2 [] none (by decide) rfl⟩
